import Mathlib

/-!
Verification of the binary marshalling core of the d3-scattertrans clustering
WASM module (src/d3st-wasm/src/lib.rs).

The source decodes a raw byte buffer into 32-bit-float points, runs an external
fuzzy-DBSCAN engine, and re-encodes the resulting clusters into a bit-packed
16-bit-word stream.

Modelling conventions:
- Bytes are natural numbers; a scalar (an f32 in the source) is modelled by its
  32-bit little-endian bit pattern, since the decoding layer never inspects the
  floating-point value, only groups and slices the buffer.
- Soft labels (f64 in the source) are modelled as rationals; the one arithmetic
  operation performed on them, multiplication by the literal 65535 followed by
  a saturating-truncating cast to u16, is modelled by exact rational
  multiplication, floor, and saturation.
- Rust integer remainder panics when the divisor is zero; that outcome is made
  explicit as a third result constructor, distinct from the single error value
  of the source (ClusterError::UnexpectedEndOfInput).
-/

namespace D3st

/-- Outcome of a fallible operation in the source. The source has exactly one
error value (ClusterError::UnexpectedEndOfInput); divByZeroPanic models the
Rust arithmetic panic raised by the remainder operator when its divisor is
zero, which is a crash (a wasm trap), not a returned error. -/
inductive DecodeResult (α : Type) where
  | ok (val : α)
  | unexpectedEndOfInput
  | divByZeroPanic
  deriving DecidableEq, Repr

/-- One 32-bit scalar assembled from four bytes in little-endian order.
This models the pointer cast in byte_array_as_scalar_type, which reinterprets
four consecutive bytes as one f32; we keep the raw 32-bit pattern. -/
def scalarOfBytes (b0 b1 b2 b3 : Nat) : Nat :=
  b0 % 256 + 256 * (b1 % 256) + 65536 * (b2 % 256) + 16777216 * (b3 % 256)

/-- The scalar sequence covered by a byte buffer: consecutive groups of four
bytes, in order. Callers only use this on buffers whose length is a multiple
of four (the trailing group of fewer than four bytes never exists there). -/
def scalarsOf : List Nat → List Nat
  | b0 :: b1 :: b2 :: b3 :: rest => scalarOfBytes b0 b1 b2 b3 :: scalarsOf rest
  | _ => []

/-- byte_array_as_scalar_type from the source: fails with the single error
value iff the byte length is not an exact multiple of 4 (the f32 width),
otherwise yields the borrowed scalar view. -/
def byte_array_as_scalar_type (arr : List Nat) : DecodeResult (List Nat) :=
  if arr.length % 4 = 0 then .ok (scalarsOf arr) else .unexpectedEndOfInput

/-- The point-forming loop shared by both decoders: point i is the contiguous
slice of the scalar view from i * n (inclusive) to (i + 1) * n (exclusive),
and there are length / n points. -/
def makePoints (scalars : List Nat) (n : Nat) : List (List Nat) :=
  (List.range (scalars.length / n)).map (fun i => (scalars.drop (i * n)).take n)

/-- read_packed_data from the source (const-generic dimension count n).
After the byte reinterpretation, the source computes scalars.len() % n; in
Rust that remainder panics when n = 0, which the model makes explicit.
The const generic is only ever instantiated at 1..7 by the dispatcher. -/
def read_packed_data (n : Nat) (packed_data : List Nat) :
    DecodeResult (List (List Nat)) :=
  match byte_array_as_scalar_type packed_data with
  | .unexpectedEndOfInput => .unexpectedEndOfInput
  | .divByZeroPanic => .divByZeroPanic
  | .ok scalars =>
    if n = 0 then .divByZeroPanic
    else if scalars.length % n ≠ 0 then .unexpectedEndOfInput
    else .ok (makePoints scalars n)

/-- read_packed_data_dyn from the source (runtime dimension count). The body
is identical to the const-generic variant; only the point representation
(DataPointDyn instead of DataPoint) differs in the source, and both are
borrowed slices of the scalar view. -/
def read_packed_data_dyn (packed_data : List Nat) (dimensions : Nat) :
    DecodeResult (List (List Nat)) :=
  match byte_array_as_scalar_type packed_data with
  | .unexpectedEndOfInput => .unexpectedEndOfInput
  | .divByZeroPanic => .divByZeroPanic
  | .ok scalars =>
    if dimensions = 0 then .divByZeroPanic
    else if scalars.length % dimensions ≠ 0 then .unexpectedEndOfInput
    else .ok (makePoints scalars dimensions)

/-- Category from the fuzzy-DBSCAN engine: the role of a point within its
assigned cluster. -/
inductive Category where
  | core
  | border
  | noise
  deriving DecidableEq, Repr

/-- An assignment produced by the clustering engine: a point index into the
original input sequence, a category, and a soft label in [0, 1]. The f64
label is modelled as a rational. -/
structure Assignment where
  index : Nat
  category : Category
  label : ℚ
  deriving DecidableEq

/-- A cluster is an ordered sequence of assignments. -/
abbrev Cluster := List Assignment

/-- The category code emitted by pack_clusters: Core = 0, Border = 1,
Noise = 2 (the 2-bit value 3 is unused). -/
def categoryIndex : Category → Nat
  | .core => 0
  | .border => 1
  | .noise => 2

/-- The quantized soft label: the source computes (label * 65535.) as u16.
A Rust f64-to-u16 "as" cast truncates toward zero and saturates at the ends
of the u16 range (negative values map to 0, values at or above 65535 map to
65535); the multiplication is modelled as exact rational arithmetic. -/
def quantizeLabel (label : ℚ) : Nat :=
  if label * 65535 < 0 then 0 else min 65535 (Int.toNat ⌊label * 65535⌋)

/-- The two 16-bit words pack_clusters emits per assignment: first
(index as u16) | (category_index << 14), then the quantized label.
The "as u16" cast truncates the index to its low 16 bits. -/
def encodeAssignment (a : Assignment) : List Nat :=
  [(a.index % 65536) ||| (categoryIndex a.category <<< 14), quantizeLabel a.label]

/-- The word segment pack_clusters emits per cluster: the assignment count as
u16, followed by the two words of each assignment in order. -/
def encodeCluster (c : Cluster) : List Nat :=
  c.length % 65536 :: c.flatMap encodeAssignment

/-- pack_clusters from the source, at the 16-bit-word level: the concatenation
of all per-cluster segments in input order, no separators and no global
header. -/
def pack_clusters (clusters : List Cluster) : List Nat :=
  clusters.flatMap encodeCluster

/-- The two bytes of one 16-bit word in little-endian (wasm native) order.
This models the final in-place reinterpretation of the Vec of u16 as a Vec
of u8 of twice the length. -/
def wordToBytes (w : Nat) : List Nat :=
  [w % 256, (w / 256) % 256]

/-- The response byte buffer: each 16-bit word of pack_clusters emitted as two
bytes in native order. -/
def pack_clusters_bytes (clusters : List Cluster) : List Nat :=
  (pack_clusters clusters).flatMap wordToBytes

/-- FuzzyCluster::cluster from the source. The const_dims macro dispatches
dimension counts 1 through 7 to the const-generic decoder and every other
count (including 0) to the dynamic decoder; the clustering engine itself is
an external collaborator, passed here as an opaque function from decoded
points to clusters. The question mark operator propagates the decode error
before the engine runs; a decode panic likewise aborts the call. -/
def cluster (engine : List (List Nat) → List Cluster) (packed_data : List Nat)
    (dimensions : Nat) : DecodeResult (List Nat) :=
  match dimensions with
  | 1 | 2 | 3 | 4 | 5 | 6 | 7 =>
    match read_packed_data dimensions packed_data with
    | .ok data => .ok (pack_clusters (engine data))
    | .unexpectedEndOfInput => .unexpectedEndOfInput
    | .divByZeroPanic => .divByZeroPanic
  | _ =>
    match read_packed_data_dyn packed_data dimensions with
    | .ok data => .ok (pack_clusters (engine data))
    | .unexpectedEndOfInput => .unexpectedEndOfInput
    | .divByZeroPanic => .divByZeroPanic

/-- An assignment as recovered by a consumer of the documented binary format:
the low 14 bits of the first word are the index, the high 2 bits are the
category code, and the second word divided by 65535 is the recovered soft
label. -/
structure DecodedAssignment where
  index : Nat
  categoryCode : Nat
  label : ℚ
  deriving DecidableEq

/-- Parser for the documented per-assignment format, following the words of
the specification (one u16 packed index/category word and one u16 quantized
label word per assignment): reads the given number of assignments and returns
them with the unconsumed remainder, failing on a truncated stream. -/
def specParseAssignments :
    Nat → List Nat → Option (List DecodedAssignment × List Nat)
  | 0, ws => some ([], ws)
  | n + 1, w1 :: w2 :: ws =>
    match specParseAssignments n ws with
    | none => none
    | some (rest, rem) =>
      some (⟨w1 % 16384, (w1 / 16384) % 4, (w2 : ℚ) / 65535⟩ :: rest, rem)
  | _ + 1, _ => none

/-- Fuelled parser for the documented per-cluster format, following the words
of the specification: each cluster is one u16 assignment count followed by
that many assignment pairs, concatenated with no separators until the end of
the buffer. The fuel bounds the number of clusters and is instantiated with
the word count, which always suffices since every cluster occupies at least
one word. -/
def specParseClustersFuel :
    Nat → List Nat → Option (List (List DecodedAssignment))
  | _, [] => some []
  | 0, _ :: _ => none
  | fuel + 1, cnt :: rest =>
    match specParseAssignments cnt rest with
    | none => none
    | some (asgns, rem) =>
      match specParseClustersFuel fuel rem with
      | none => none
      | some clusters => some (asgns :: clusters)

/-- Parser for the documented response format, at the 16-bit-word level. -/
def specParseClusters (ws : List Nat) : Option (List (List DecodedAssignment)) :=
  specParseClustersFuel ws.length ws

/-- Regrouping of the response bytes into 16-bit words in little-endian
(wasm native) order, per the documented byte layout; fails on an odd-length
buffer. -/
def specBytesToWords : List Nat → Option (List Nat)
  | [] => some []
  | lo :: hi :: bs =>
    match specBytesToWords bs with
    | none => none
    | some ws => some ((lo % 256 + 256 * (hi % 256)) :: ws)
  | _ :: [] => none

/-- Round toward nearest, following the words of the specification sentence
for the quantized label (round(soft_label * 65535)); ties round up. Used only
to compare the specified rounding with what the source actually computes. -/
def specRoundNearest (x : ℚ) : ℤ :=
  ⌊x + 1 / 2⌋

/-- The recovery relation of the round-trip property: a decoded assignment
recovers an original one when the index and category code match exactly and
the recovered label is within quantization distance of the original. -/
def recovers (a : Assignment) (r : DecodedAssignment) : Prop :=
  r.index = a.index ∧ r.categoryCode = categoryIndex a.category ∧
    |r.label - a.label| ≤ 1 / 65535

/-- A cluster on which the bit-packed format is not lossy: fewer than 2 ^ 16
assignments (the count word is a u16), every point index below 2 ^ 14 (the
index field is 14 bits wide), and every soft label in [0, 1]. -/
def GoodCluster (c : Cluster) : Prop :=
  c.length < 65536 ∧ ∀ a ∈ c, a.index < 16384 ∧ 0 ≤ a.label ∧ a.label ≤ 1

/-! Helper lemmas shared by several claims. -/

theorem lor_low_high {i : Nat} (c : Nat) (hi : i < 16384) :
    i ||| (c <<< 14) = 16384 * c + i := by
  have hi' : i < 2 ^ 14 := by norm_num at hi ⊢; omega
  have h : (16384 : Nat) * c + i = 2 ^ 14 * c + i := by norm_num
  rw [h]
  apply Nat.eq_of_testBit_eq
  intro j
  rw [Nat.testBit_lor, Nat.testBit_shiftLeft, Nat.testBit_mul_pow_two_add c hi' j]
  by_cases hj : j < 14
  · have hj' : ¬ (j ≥ 14) := by omega
    simp [hj, hj']
  · have hj' : (14 : Nat) ≤ j := by omega
    have hij : i < 2 ^ j :=
      lt_of_lt_of_le hi' (Nat.pow_le_pow_right (by norm_num) hj')
    simp [hj, hj', Nat.testBit_lt_two_pow hij]

theorem lor_word_lt {i c : Nat} (hi : i < 65536) (hc : c < 4) :
    i ||| (c <<< 14) < 65536 := by
  have h1 : i < 2 ^ 16 := by omega
  have h2 : c <<< 14 < 2 ^ 16 := by
    rw [Nat.shiftLeft_eq]
    calc c * 2 ^ 14 < 4 * 2 ^ 14 := by
          exact Nat.mul_lt_mul_of_lt_of_le hc (le_refl _) (by norm_num)
      _ ≤ 2 ^ 16 := by norm_num
  have := Nat.or_lt_two_pow h1 h2
  omega

theorem categoryIndex_lt_four (c : Category) : categoryIndex c < 4 := by
  cases c <;> simp [categoryIndex]

theorem quantizeLabel_le (l : ℚ) : quantizeLabel l ≤ 65535 := by
  rw [quantizeLabel]
  split
  · omega
  · exact min_le_left _ _

theorem quantizeLabel_eq_floor {l : ℚ} (h0 : 0 ≤ l) (h1 : l ≤ 1) :
    quantizeLabel l = Int.toNat ⌊l * 65535⌋ := by
  have hx0 : (0 : ℚ) ≤ l * 65535 := mul_nonneg h0 (by norm_num)
  have hx1 : l * 65535 ≤ 65535 := by nlinarith
  rw [quantizeLabel, if_neg (not_lt.mpr hx0)]
  have hfl : ⌊l * 65535⌋ ≤ 65535 := by
    have h := Int.floor_le_floor hx1
    have h65 : ⌊(65535 : ℚ)⌋ = 65535 := by norm_num
    omega
  have hle : Int.toNat ⌊l * 65535⌋ ≤ 65535 := by omega
  exact min_eq_right hle

theorem quantizeLabel_close {l : ℚ} (h0 : 0 ≤ l) (h1 : l ≤ 1) :
    |((quantizeLabel l : Nat) : ℚ) / 65535 - l| ≤ 1 / 65535 := by
  rw [quantizeLabel_eq_floor h0 h1]
  have hx0 : (0 : ℚ) ≤ l * 65535 := mul_nonneg h0 (by norm_num)
  have hfl0 : 0 ≤ ⌊l * 65535⌋ := Int.floor_nonneg.mpr hx0
  have hcast : ((Int.toNat ⌊l * 65535⌋ : Nat) : ℚ) = ((⌊l * 65535⌋ : ℤ) : ℚ) := by
    exact_mod_cast Int.toNat_of_nonneg hfl0
  rw [hcast]
  have hle : ((⌊l * 65535⌋ : ℤ) : ℚ) ≤ l * 65535 := Int.floor_le _
  have hgt : l * 65535 - 1 < ((⌊l * 65535⌋ : ℤ) : ℚ) := Int.sub_one_lt_floor _
  rw [abs_le]
  constructor <;> [linarith; linarith]

theorem scalarsOf_length : ∀ l : List Nat, (scalarsOf l).length = l.length / 4
  | [] => rfl
  | [_] => by simp [scalarsOf]
  | [_, _] => by simp [scalarsOf]
  | [_, _, _] => by simp [scalarsOf]
  | a :: b :: c :: d :: rest => by
    show (scalarOfBytes a b c d :: scalarsOf rest).length = _
    simp only [List.length_cons, scalarsOf_length rest]
    omega

theorem encodeAssignment_words_lt {w : Nat} {a : Assignment}
    (hw : w ∈ encodeAssignment a) : w < 65536 := by
  simp only [encodeAssignment, List.mem_cons, List.mem_singleton,
    List.not_mem_nil, or_false] at hw
  rcases hw with h | h
  · subst h
    exact lor_word_lt (Nat.mod_lt _ (by norm_num)) (categoryIndex_lt_four _)
  · subst h
    have := quantizeLabel_le a.label
    omega

theorem pack_clusters_words_lt {w : Nat} {cs : List Cluster}
    (hw : w ∈ pack_clusters cs) : w < 65536 := by
  simp only [pack_clusters, List.mem_flatMap] at hw
  obtain ⟨c, _, hwc⟩ := hw
  simp only [encodeCluster, List.mem_cons] at hwc
  rcases hwc with h | h
  · subst h
    exact Nat.mod_lt _ (by norm_num)
  · simp only [List.mem_flatMap] at h
    obtain ⟨a, _, hwa⟩ := h
    exact encodeAssignment_words_lt hwa

theorem specBytesToWords_flatMap {ws : List Nat} (h : ∀ w ∈ ws, w < 65536) :
    specBytesToWords (ws.flatMap wordToBytes) = some ws := by
  induction ws with
  | nil => rfl
  | cons w ws ih =>
    have hw : w < 65536 := h w (List.mem_cons_self w ws)
    have hrest : ∀ u ∈ ws, u < 65536 := fun u hu => h u (List.mem_cons_of_mem w hu)
    show specBytesToWords (w % 256 :: (w / 256) % 256 :: ws.flatMap wordToBytes) = _
    rw [specBytesToWords, ih hrest]
    have : w % 256 % 256 + 256 * ((w / 256) % 256 % 256) = w := by omega
    rw [this]

theorem length_le_pack_clusters_length (cs : List Cluster) :
    cs.length ≤ (pack_clusters cs).length := by
  induction cs with
  | nil => simp [pack_clusters]
  | cons c cs ih =>
    simp only [pack_clusters, List.flatMap_cons, List.length_append,
      List.length_cons, encodeCluster] at *
    omega

theorem encodeAssignment_word1_eq {a : Assignment} (ha : a.index < 16384) :
    (a.index % 65536) ||| (categoryIndex a.category <<< 14) =
      16384 * categoryIndex a.category + a.index := by
  rw [Nat.mod_eq_of_lt (by omega : a.index < 65536)]
  exact lor_low_high _ ha

theorem specParseAssignments_encode (c : List Assignment) (rest : List Nat)
    (h : ∀ a ∈ c, a.index < 16384 ∧ 0 ≤ a.label ∧ a.label ≤ 1) :
    ∃ ds, specParseAssignments c.length (c.flatMap encodeAssignment ++ rest) =
        some (ds, rest) ∧ List.Forall₂ recovers c ds := by
  induction c with
  | nil => exact ⟨[], rfl, List.Forall₂.nil⟩
  | cons a c ih =>
    have ha := h a (List.mem_cons_self a c)
    obtain ⟨ds, hds, hrel⟩ := ih (fun b hb => h b (List.mem_cons_of_mem a hb))
    have hshape : (a :: c).flatMap encodeAssignment ++ rest =
        ((a.index % 65536) ||| (categoryIndex a.category <<< 14)) ::
          quantizeLabel a.label :: (c.flatMap encodeAssignment ++ rest) := by
      simp [encodeAssignment]
    rw [hshape, List.length_cons, specParseAssignments, hds]
    refine ⟨_, rfl, List.Forall₂.cons ⟨?_, ?_, ?_⟩ hrel⟩
    · rw [encodeAssignment_word1_eq ha.1]
      have := categoryIndex_lt_four a.category
      have h16 := ha.1
      show (16384 * categoryIndex a.category + a.index) % 16384 = a.index
      omega
    · rw [encodeAssignment_word1_eq ha.1]
      have := categoryIndex_lt_four a.category
      have h16 := ha.1
      show (16384 * categoryIndex a.category + a.index) / 16384 % 4 =
        categoryIndex a.category
      omega
    · exact quantizeLabel_close ha.2.1 ha.2.2

theorem specParseClustersFuel_encode (cs : List Cluster) (fuel : Nat)
    (hfuel : cs.length ≤ fuel) (h : ∀ c ∈ cs, GoodCluster c) :
    ∃ ds, specParseClustersFuel fuel (pack_clusters cs) = some ds ∧
      List.Forall₂ (List.Forall₂ recovers) cs ds := by
  induction cs generalizing fuel with
  | nil =>
    refine ⟨[], ?_, List.Forall₂.nil⟩
    show specParseClustersFuel fuel [] = some []
    cases fuel <;> rfl
  | cons c cs ih =>
    obtain ⟨f, rfl⟩ : ∃ f, fuel = f + 1 := by
      refine ⟨fuel - 1, ?_⟩
      simp only [List.length_cons] at hfuel
      omega
    have hgood := h c (List.mem_cons_self c cs)
    obtain ⟨dsa, hdsa, hrela⟩ :=
      specParseAssignments_encode c (pack_clusters cs) hgood.2
    obtain ⟨ds, hds, hrel⟩ := ih f
      (by simp only [List.length_cons] at hfuel; omega)
      (fun b hb => h b (List.mem_cons_of_mem c hb))
    have hshape : pack_clusters (c :: cs) =
        c.length % 65536 :: (c.flatMap encodeAssignment ++ pack_clusters cs) := by
      simp [pack_clusters, encodeCluster]
    rw [hshape, specParseClustersFuel, Nat.mod_eq_of_lt hgood.1, hdsa]
    simp only [hds]
    exact ⟨_, rfl, List.Forall₂.cons hrela hrel⟩

theorem quantizeLabel_zero : quantizeLabel 0 = 0 := by
  norm_num [quantizeLabel]

theorem quantizeLabel_one : quantizeLabel 1 = 65535 := by
  have hfl : ⌊(1 : ℚ) * 65535⌋ = 65535 := by
    rw [show ((1 : ℚ) * 65535) = ((65535 : ℤ) : ℚ) by norm_num, Int.floor_intCast]
  norm_num [quantizeLabel, hfl]

/-! Claim theorems. -/

/-- Claim C1, amended: for every Clustering Result whose clusters each hold
fewer than 65536 assignments, whose point indices are all below 16384, and
whose soft labels all lie in [0, 1], encoding with pack_clusters and parsing
the resulting byte buffer back per the documented binary format recovers
every point index and category tag exactly and every soft label to within
quantization error 1 / 65535. -/
theorem c1_roundtrip (cs : List Cluster) (h : ∀ c ∈ cs, GoodCluster c) :
    ∃ ds, (specBytesToWords (pack_clusters_bytes cs)).bind specParseClusters =
        some ds ∧ List.Forall₂ (List.Forall₂ recovers) cs ds := by
  have hwords : specBytesToWords ((pack_clusters cs).flatMap wordToBytes) =
      some (pack_clusters cs) :=
    specBytesToWords_flatMap (fun w hw => pack_clusters_words_lt hw)
  rw [pack_clusters_bytes, hwords]
  simp only [Option.some_bind, specParseClusters]
  exact specParseClustersFuel_encode cs _ (length_le_pack_clusters_length cs) h

theorem c1_roundtrip_witness :
    ∃ ds, (specBytesToWords
        (pack_clusters_bytes [[⟨5, Category.core, 1⟩]])).bind specParseClusters =
        some ds ∧
      List.Forall₂ (List.Forall₂ recovers) [[⟨5, Category.core, 1⟩]] ds :=
  c1_roundtrip [[⟨5, Category.core, 1⟩]] (by
    intro c hc
    simp only [List.mem_singleton] at hc
    subst hc
    refine ⟨by decide, ?_⟩
    intro a ha
    simp only [List.mem_singleton] at ha
    subst ha
    exact ⟨by decide, zero_le_one, le_refl 1⟩)

/-- Claim C1, counterexample to the unrestricted statement: the Clustering
Result holding one cluster with the single assignment (index 16384, Core,
label 0) does not round-trip: the encoder packs the index into 14 bits, so
the parser recovers index 0 and category code 1 (Border) instead. -/
theorem c1_counterexample :
    ¬ ∃ ds, (specBytesToWords
        (pack_clusters_bytes [[⟨16384, Category.core, 0⟩]])).bind specParseClusters =
        some ds ∧
      List.Forall₂ (List.Forall₂ recovers) [[⟨16384, Category.core, 0⟩]] ds := by
  have hpack : pack_clusters [[⟨16384, Category.core, 0⟩]] = [1, 16384, 0] := by
    norm_num [pack_clusters, encodeCluster, encodeAssignment, categoryIndex,
      quantizeLabel_zero]
  have hbytes : pack_clusters_bytes [[⟨16384, Category.core, 0⟩]] =
      [1, 0, 0, 64, 0, 0] := by
    rw [pack_clusters_bytes, hpack]
    norm_num [wordToBytes]
  have hwords : specBytesToWords [1, 0, 0, 64, 0, 0] = some [1, 16384, 0] := by
    norm_num [specBytesToWords]
  have hparse : specParseClusters [1, 16384, 0] = some [[⟨0, 1, 0⟩]] := by
    norm_num [specParseClusters, specParseClustersFuel, specParseAssignments]
  rintro ⟨ds, hds, hrel⟩
  rw [hbytes, hwords] at hds
  simp only [Option.some_bind, hparse, Option.some_inj] at hds
  subst hds
  rcases hrel with _ | ⟨hcl, _⟩
  rcases hcl with _ | ⟨hrec, _⟩
  exact absurd hrec.1 (by decide)

/-- Claim C2: the first word of each assignment is the index OR-ed with the
category code shifted left by 14 (Core = 0, Border = 1, Noise = 2); the
Clustering Result of one cluster with assignments (index 5, Core, label 1)
and (index 3, Noise, label 0) encodes to exactly the word sequence
0x0002, 0x0005, 0xFFFF, 0x8003, 0x0000; and a cluster with zero assignments
contributes the single word 0x0000 wherever it occurs. -/
theorem c2_concrete_encoding :
    pack_clusters [[⟨5, Category.core, 1⟩, ⟨3, Category.noise, 0⟩]] =
      [2, 5, 65535, 32771, 0] ∧
    ∀ cs ds : List Cluster,
      pack_clusters (cs ++ ([] : Cluster) :: ds) =
        pack_clusters cs ++ 0 :: pack_clusters ds := by
  constructor
  · have h3 : (3 : Nat) ||| (2 <<< 14) = 32771 := by
      rw [lor_low_high 2 (by norm_num)]
    norm_num [pack_clusters, encodeCluster, encodeAssignment, categoryIndex,
      quantizeLabel_zero, quantizeLabel_one, h3]
  · intro cs ds
    simp [pack_clusters, encodeCluster]

/-- Claim C3: with dimensions = 0, the source does not return the
malformed-input error on well-aligned input; the dispatcher routes 0 to the
dynamic decoder, whose remainder by the dimension count panics in Rust when
the byte length is a multiple of 4 (here: the empty buffer). The call
therefore crashes instead of failing cleanly, whatever the clustering
engine is. -/
theorem c3_dims_zero_panics :
    (∀ engine : List (List Nat) → List Cluster,
      cluster engine [] 0 = DecodeResult.divByZeroPanic) ∧
    read_packed_data_dyn [] 0 = DecodeResult.divByZeroPanic := by
  exact ⟨fun engine => rfl, rfl⟩

theorem read_packed_data_char (bytes : List Nat) {n : Nat} (h : 1 ≤ n) :
    read_packed_data n bytes =
      if bytes.length % 4 = 0 ∧ bytes.length / 4 % n = 0
      then DecodeResult.ok (makePoints (scalarsOf bytes) n)
      else DecodeResult.unexpectedEndOfInput := by
  have hn0 : ¬ n = 0 := by omega
  by_cases h4 : bytes.length % 4 = 0
  · by_cases hn : bytes.length / 4 % n = 0
    · simp [read_packed_data, byte_array_as_scalar_type, h4, hn, hn0,
        scalarsOf_length]
    · simp [read_packed_data, byte_array_as_scalar_type, h4, hn, hn0,
        scalarsOf_length]
  · simp [read_packed_data, byte_array_as_scalar_type, h4]

/-- Claim C4: with a positive dimension count, decoding fails with the single
malformed-input error exactly when the byte length is not a multiple of 4 or
the scalar count is not a multiple of the dimension count, on both decoder
paths; otherwise it succeeds with the decoded points. Moreover a byte buffer
whose length is not a multiple of 4 is rejected by the dynamic decoder for
every requested dimension count, zero included, since the length check runs
first. -/
theorem c4_decode_error_iff (bytes : List Nat) (n : Nat) (h : 1 ≤ n) :
    (read_packed_data n bytes = DecodeResult.unexpectedEndOfInput ↔
      bytes.length % 4 ≠ 0 ∨ bytes.length / 4 % n ≠ 0) ∧
    (read_packed_data_dyn bytes n = DecodeResult.unexpectedEndOfInput ↔
      bytes.length % 4 ≠ 0 ∨ bytes.length / 4 % n ≠ 0) ∧
    (bytes.length % 4 = 0 ∧ bytes.length / 4 % n = 0 →
      read_packed_data n bytes =
        DecodeResult.ok (makePoints (scalarsOf bytes) n)) ∧
    (∀ d, bytes.length % 4 ≠ 0 →
      read_packed_data_dyn bytes d = DecodeResult.unexpectedEndOfInput) := by
  have hsame : read_packed_data_dyn bytes n = read_packed_data n bytes := rfl
  have hchar := read_packed_data_char bytes h
  have hiff : read_packed_data n bytes = DecodeResult.unexpectedEndOfInput ↔
      bytes.length % 4 ≠ 0 ∨ bytes.length / 4 % n ≠ 0 := by
    rw [hchar]
    split
    next hc => simp [hc.1, hc.2]
    next hc =>
      refine ⟨fun _ => ?_, fun _ => rfl⟩
      by_contra hcon
      push_neg at hcon
      exact hc ⟨hcon.1, hcon.2⟩
  refine ⟨hiff, by rw [hsame]; exact hiff, fun hc => by rw [hchar, if_pos hc],
    fun d h4 => ?_⟩
  simp [read_packed_data_dyn, byte_array_as_scalar_type, h4]

theorem c4_decode_error_witness :
    read_packed_data 1 [0, 0, 0] = DecodeResult.unexpectedEndOfInput :=
  (c4_decode_error_iff [0, 0, 0] 1 (by decide)).1.mpr (Or.inl (by decide))

/-- Claim C5, counterexample: the quantized word is not round-to-nearest.
At soft label 1/2 the source computes (1/2 * 65535) as u16 = 32767 (the cast
truncates toward zero), whereas rounding 32767.5 toward nearest gives 32768.
The f64 arithmetic is exact here: 1/2 and 65535 are dyadic rationals whose
product 32767.5 is exactly representable. -/
theorem c5_counterexample :
    quantizeLabel (1 / 2) = 32767 ∧
    specRoundNearest ((1 / 2) * 65535) = 32768 ∧
    (quantizeLabel (1 / 2) : ℤ) ≠ specRoundNearest ((1 / 2) * 65535) := by
  have hfl : ⌊(1 / 2 : ℚ) * 65535⌋ = 32767 := by
    rw [Int.floor_eq_iff]
    norm_num
  have h1 : quantizeLabel (1 / 2) = 32767 := by
    rw [quantizeLabel, if_neg (by norm_num), hfl]
    decide
  have h2 : specRoundNearest ((1 / 2 : ℚ) * 65535) = 32768 := by
    rw [specRoundNearest,
      show ((1 / 2 : ℚ) * 65535 + 1 / 2) = ((32768 : ℤ) : ℚ) by norm_num,
      Int.floor_intCast]
  refine ⟨h1, h2, ?_⟩
  rw [h1, h2]
  decide

/-- Claim C5, amended: for every soft label in [0, 1] the second word equals
the truncation toward zero of soft_label * 65535 (its floor, the label being
nonnegative), and the value always fits in a u16, so the saturating branches
of the cast never engage. -/
theorem c5_quantize_truncates (l : ℚ) (h0 : 0 ≤ l) (h1 : l ≤ 1) :
    quantizeLabel l = Int.toNat ⌊l * 65535⌋ ∧ quantizeLabel l ≤ 65535 :=
  ⟨quantizeLabel_eq_floor h0 h1, quantizeLabel_le l⟩

theorem c5_quantize_truncates_witness :
    quantizeLabel 1 = Int.toNat ⌊(1 : ℚ) * 65535⌋ ∧ quantizeLabel 1 ≤ 65535 :=
  c5_quantize_truncates 1 zero_le_one (le_refl 1)

/-- Claim C6: for every input buffer and dimension count between 1 and 7, the
const-generic decoder and the dynamic decoder agree exactly: same outcome,
same number of points, identical coordinate slices. In the model the two
source functions have literally identical bodies, so the equality is
definitional. -/
theorem c6_fixed_dyn_agree (bytes : List Nat) (d : Nat) (_h1 : 1 ≤ d)
    (_h7 : d ≤ 7) : read_packed_data d bytes = read_packed_data_dyn bytes d :=
  rfl

theorem c6_fixed_dyn_agree_witness :
    read_packed_data 2 [0, 0, 128, 63, 0, 0, 0, 64] =
      read_packed_data_dyn [0, 0, 128, 63, 0, 0, 0, 64] 2 :=
  c6_fixed_dyn_agree [0, 0, 128, 63, 0, 0, 0, 64] 2 (by decide) (by decide)

/-- Claim C7: on a scalar view whose length is an exact multiple of the
dimension count n, the point-forming stage returns exactly length / n points;
point i is the slice of the view from i * n to (i + 1) * n, which has length
exactly n, and its k-th coordinate is the scalar at position i * n + k of the
view. -/
theorem c7_points_layout (s : List Nat) (n : Nat) (h1 : 1 ≤ n)
    (h2 : s.length % n = 0) :
    (makePoints s n).length = s.length / n ∧
    ∀ i, i < s.length / n →
      (makePoints s n)[i]? = some ((s.drop (i * n)).take n) ∧
      ((s.drop (i * n)).take n).length = n ∧
      ∀ k, k < n → ((s.drop (i * n)).take n)[k]? = s[i * n + k]? := by
  constructor
  · simp [makePoints]
  · intro i hi
    have hdvd : n ∣ s.length := Nat.dvd_of_mod_eq_zero h2
    have hbound : i * n + n ≤ s.length := by
      have hle : (i + 1) * n ≤ s.length / n * n :=
        Nat.mul_le_mul_right n hi
      rw [Nat.div_mul_cancel hdvd, Nat.succ_mul] at hle
      exact hle
    refine ⟨?_, ?_, ?_⟩
    · simp [makePoints, List.getElem?_map, List.getElem?_range hi]
    · rw [List.length_take, List.length_drop]
      omega
    · intro k hk
      rw [List.getElem?_take_of_lt hk, List.getElem?_drop]

theorem c7_points_layout_witness :
    (makePoints [10, 20, 30, 40] 2).length =
      ([10, 20, 30, 40] : List Nat).length / 2 :=
  (c7_points_layout [10, 20, 30, 40] 2 (by decide) (by decide)).1

/-- Claim C8: encoding is total and never rejects an assignment. Every word
of the packed stream fits in a u16; an index is truncated to its low 16 bits
before being OR-ed with the shifted category code, so adding 65536 to an
index leaves the encoding unchanged, and an out-of-range index aliases into
the category field: index 16384 tagged Core encodes identically to index 0
tagged Border. -/
theorem c8_index_truncation :
    (∀ (cs : List Cluster) (w : Nat), w ∈ pack_clusters cs → w < 65536) ∧
    (∀ (i : Nat) (cat : Category) (l : ℚ),
      encodeAssignment ⟨i + 65536, cat, l⟩ = encodeAssignment ⟨i, cat, l⟩) ∧
    (∀ l : ℚ, encodeAssignment ⟨16384, Category.core, l⟩ =
      encodeAssignment ⟨0, Category.border, l⟩) := by
  refine ⟨fun cs w hw => pack_clusters_words_lt hw, ?_, ?_⟩
  · intro i cat l
    simp [encodeAssignment, Nat.add_mod_right]
  · intro l
    norm_num [encodeAssignment, categoryIndex, Nat.shiftLeft_eq]

theorem c8_index_truncation_witness :
    0 < 65536 ∧
    encodeAssignment ⟨16384 + 65536, Category.core, 0⟩ =
      encodeAssignment ⟨16384, Category.core, 0⟩ :=
  ⟨c8_index_truncation.1 [[]] 0 (by simp [pack_clusters, encodeCluster]),
    c8_index_truncation.2.1 16384 Category.core 0⟩

/-- Claim C10: decoding the empty byte buffer with any positive dimension
count succeeds on both decoder paths and yields zero points, not an error:
the length 0 is a multiple of 4, the scalar view is empty, and 0 scalars are
a multiple of every positive dimension count. -/
theorem c10_empty_buffer (d : Nat) (h : 1 ≤ d) :
    read_packed_data d [] = DecodeResult.ok [] ∧
    read_packed_data_dyn [] d = DecodeResult.ok [] := by
  have hd0 : ¬ d = 0 := by omega
  constructor <;>
    simp [read_packed_data, read_packed_data_dyn, byte_array_as_scalar_type,
      scalarsOf, makePoints, hd0]

theorem c10_empty_buffer_witness :
    read_packed_data 1 [] = DecodeResult.ok [] ∧
    read_packed_data_dyn [] 1 = DecodeResult.ok [] :=
  c10_empty_buffer 1 (by decide)

end D3st
